import Mathlib

/-!
Verification of the key-center estimation core of MIDI_COMPOSE.

The definitions below are shallow embeddings of the Python source:
* `src/analysis/key_analysis.py` (class `SlidingWindowKeyAnalyzer`),
* `src/utilities/calculate_key_correlations.py`,
* `src/core/midi_data.py` (`MidiNote`),
* `src/utils/music_theory.py` (key-profile constants).

Python floats are modelled as `ℝ` where the value flows through `sqrt`
(Pearson correlation) and as `ℚ` everywhere else; Python ints are `ℤ`/`ℕ`.
-/

namespace MidiCompose

/-- The two key modes, the strings `'major'` / `'minor'` of the source. -/
inductive Mode
  | major
  | minor
deriving DecidableEq, Repr, Fintype

/-- `MAJOR_KEY_PROFILE` from `src/utils/music_theory.py`. -/
def MAJOR_KEY_PROFILE : Fin 12 → ℚ :=
  ![6.35, 2.23, 3.48, 2.33, 4.38, 4.09, 2.52, 5.19, 2.39, 3.66, 2.29, 2.88]

/-- `MINOR_KEY_PROFILE` from `src/utils/music_theory.py`. -/
def MINOR_KEY_PROFILE : Fin 12 → ℚ :=
  ![6.33, 2.68, 3.52, 5.38, 2.60, 3.53, 2.54, 4.75, 3.98, 2.69, 3.34, 3.17]

/-- Template selection `MAJOR_KEY_PROFILE if mode == 'major' else MINOR_KEY_PROFILE`. -/
def keyTemplate : Mode → Fin 12 → ℚ
  | Mode.major => MAJOR_KEY_PROFILE
  | Mode.minor => MINOR_KEY_PROFILE

/-- `np.roll(v, k)`: `roll v k i = v ((i - k) mod 12)`. -/
def roll {α : Type} (v : Fin 12 → α) (k : ℕ) : Fin 12 → α :=
  fun i => v (i - (k : Fin 12))

/-- The rotated template `np.roll(template, root)` of
`_calculate_key_correlation`, as a real-valued vector. -/
def rotatedTemplate (root : ℕ) (mode : Mode) : Fin 12 → ℝ :=
  fun i => (keyTemplate mode (i - (root : Fin 12)) : ℝ)

/-- `np.mean` of a 12-vector. -/
noncomputable def mean12 (v : Fin 12 → ℝ) : ℝ := (∑ i, v i) / 12

/-- `np.sum((v - np.mean(v)) ** 2)`, the variance sum of the source. -/
noncomputable def svar (v : Fin 12 → ℝ) : ℝ := ∑ i, (v i - mean12 v) ^ 2

/-- The numerator `np.sum((p - mean p) * (t - mean t))` of the source. -/
noncomputable def pearsonNum (p t : Fin 12 → ℝ) : ℝ :=
  ∑ i, (p i - mean12 p) * (t i - mean12 t)

/-- `SlidingWindowKeyAnalyzer._calculate_key_correlation` from
`src/analysis/key_analysis.py`: Pearson correlation of the pitch-class
profile against the template rotated by `root`, with the degenerate
denominator mapped to `0`. -/
noncomputable def calculateKeyCorrelation (p : Fin 12 → ℝ) (root : ℕ) (mode : Mode) : ℝ :=
  if 0 < Real.sqrt (svar p * svar (rotatedTemplate root mode)) then
    pearsonNum p (rotatedTemplate root mode) /
      Real.sqrt (svar p * svar (rotatedTemplate root mode))
  else 0

lemma svar_nonneg (v : Fin 12 → ℝ) : 0 ≤ svar v :=
  Finset.sum_nonneg fun _ _ => sq_nonneg _

lemma pearsonNum_sq_le (p t : Fin 12 → ℝ) :
    pearsonNum p t ^ 2 ≤ svar p * svar t := by
  simpa [pearsonNum, svar] using
    Finset.sum_mul_sq_le_sq_mul_sq Finset.univ
      (fun i => p i - mean12 p) (fun i => t i - mean12 t)

lemma abs_pearsonNum_le (p t : Fin 12 → ℝ) :
    |pearsonNum p t| ≤ Real.sqrt (svar p * svar t) := by
  have h := Real.sqrt_le_sqrt (pearsonNum_sq_le p t)
  simpa [Real.sqrt_sq_eq_abs] using h

lemma pearson_div_bounds (p t : Fin 12 → ℝ)
    (h : 0 < Real.sqrt (svar p * svar t)) :
    -1 ≤ pearsonNum p t / Real.sqrt (svar p * svar t) ∧
      pearsonNum p t / Real.sqrt (svar p * svar t) ≤ 1 := by
  have habs := abs_pearsonNum_le p t
  have h1 : pearsonNum p t ≤ Real.sqrt (svar p * svar t) :=
    le_trans (le_abs_self _) habs
  have h2 : -(Real.sqrt (svar p * svar t)) ≤ pearsonNum p t :=
    neg_le_of_neg_le (le_trans (neg_le_abs _) habs)
  constructor
  · rw [neg_le, ← neg_div]
    exact (div_le_one h).mpr (by linarith)
  · exact (div_le_one h).mpr h1

/-- C1: for every 12-element profile, every root and mode, the correlation
returned by `_calculate_key_correlation` lies in `[-1, 1]`, and whenever the
variance sum of the profile or of the rotated template is exactly zero the
function returns `0` instead of dividing by zero. -/
theorem calculateKeyCorrelation_bounds_and_degenerate
    (p : Fin 12 → ℝ) (root : ℕ) (mode : Mode) :
    (-1 ≤ calculateKeyCorrelation p root mode ∧
      calculateKeyCorrelation p root mode ≤ 1) ∧
    ((svar p = 0 ∨ svar (rotatedTemplate root mode) = 0) →
      calculateKeyCorrelation p root mode = 0) := by
  by_cases h : 0 < Real.sqrt (svar p * svar (rotatedTemplate root mode))
  · have hval : calculateKeyCorrelation p root mode =
        pearsonNum p (rotatedTemplate root mode) /
          Real.sqrt (svar p * svar (rotatedTemplate root mode)) := by
      unfold calculateKeyCorrelation
      rw [if_pos h]
    refine ⟨hval ▸ pearson_div_bounds p (rotatedTemplate root mode) h, ?_⟩
    intro hz
    have hprod : svar p * svar (rotatedTemplate root mode) = 0 := by
      rcases hz with hz | hz
      · rw [hz, zero_mul]
      · rw [hz, mul_zero]
    rw [hprod, Real.sqrt_zero] at h
    exact absurd h (lt_irrefl 0)
  · have hval : calculateKeyCorrelation p root mode = 0 := by
      unfold calculateKeyCorrelation
      rw [if_neg h]
    refine ⟨?_, fun _ => hval⟩
    rw [hval]
    constructor <;> norm_num

/-- C1 witness: a constant profile has zero variance sum, so the correlation
is `0`, and the bounds hold at that input. -/
theorem calculateKeyCorrelation_bounds_and_degenerate_witness :
    (-1 ≤ calculateKeyCorrelation (fun _ => 1) 0 Mode.major ∧
      calculateKeyCorrelation (fun _ => 1) 0 Mode.major ≤ 1) ∧
    calculateKeyCorrelation (fun _ => 1) 0 Mode.major = 0 := by
  have hsvar : svar (fun _ => (1 : ℝ)) = 0 := by
    simp [svar, mean12]
  exact ⟨(calculateKeyCorrelation_bounds_and_degenerate (fun _ => 1) 0 Mode.major).1,
    (calculateKeyCorrelation_bounds_and_degenerate (fun _ => 1) 0 Mode.major).2
      (Or.inl hsvar)⟩

lemma natCast_mod_twelve (a : ℕ) : ((a % 12 : ℕ) : Fin 12) = (a : Fin 12) := by
  apply Fin.ext
  simp only [Fin.val_natCast]
  omega

lemma sum_roll (v : Fin 12 → ℝ) (k : ℕ) : ∑ i, roll v k i = ∑ i, v i :=
  Equiv.sum_comp (Equiv.subRight ((k : ℕ) : Fin 12)) v

lemma mean12_roll (v : Fin 12 → ℝ) (k : ℕ) : mean12 (roll v k) = mean12 v := by
  unfold mean12
  rw [sum_roll]

lemma svar_roll (v : Fin 12 → ℝ) (k : ℕ) : svar (roll v k) = svar v := by
  unfold svar
  rw [mean12_roll]
  exact Equiv.sum_comp (Equiv.subRight ((k : ℕ) : Fin 12))
    (fun j => (v j - mean12 v) ^ 2)

lemma pearsonNum_roll (p t : Fin 12 → ℝ) (k : ℕ) :
    pearsonNum (roll p k) (roll t k) = pearsonNum p t := by
  unfold pearsonNum
  rw [mean12_roll, mean12_roll]
  exact Equiv.sum_comp (Equiv.subRight ((k : ℕ) : Fin 12))
    (fun j => (p j - mean12 p) * (t j - mean12 t))

lemma rotatedTemplate_add (root k : ℕ) (mode : Mode) :
    rotatedTemplate ((root + k) % 12) mode = roll (rotatedTemplate root mode) k := by
  funext i
  unfold rotatedTemplate roll
  congr 1
  rw [natCast_mod_twelve, Nat.cast_add]
  abel_nf

/-- C2: rotating the profile by `k` and the root by `k` (mod 12) leaves the
correlation of `_calculate_key_correlation` unchanged. -/
theorem calculateKeyCorrelation_rotation_invariance
    (p : Fin 12 → ℝ) (root k : ℕ) (mode : Mode) :
    calculateKeyCorrelation (roll p k) ((root + k) % 12) mode =
      calculateKeyCorrelation p root mode := by
  unfold calculateKeyCorrelation
  rw [rotatedTemplate_add, svar_roll, svar_roll, pearsonNum_roll]

/-- `MidiNote` from `src/core/midi_data.py` (fields `start`, `end`, `pitch`,
`velocity`, `selected`; the Python field `end` is spelled `end_` because
`end` is a Lean keyword). -/
structure MidiNote where
  start : ℚ
  end_ : ℚ
  pitch : ℤ
  velocity : ℤ
  selected : Bool
deriving DecidableEq, Repr

/-- Construction of a `MidiNote` followed by `MidiNote.__post_init__`:
pitch and velocity are clamped into `[0, 127]`, `start` is clamped to
`≥ 0`, and `end` is raised to at least the clamped `start`. -/
def mkMidiNote (start end_ : ℚ) (pitch velocity : ℤ) (selected : Bool) : MidiNote :=
  let pitch' := max 0 (min 127 pitch)
  let velocity' := max 0 (min 127 velocity)
  let start' := max 0 start
  let end' := max start' end_
  ⟨start', end', pitch', velocity', selected⟩

/-- `MidiNote.duration`: `max(0.0, end - start)`. -/
def MidiNote.duration (n : MidiNote) : ℚ := max 0 (n.end_ - n.start)

/-- C10: `MidiNote` construction never rejects input; after
`__post_init__` every note satisfies `0 ≤ pitch ≤ 127`,
`0 ≤ velocity ≤ 127` and `0 ≤ start ≤ end`, and a note supplied with
`end < start` comes out with duration zero rather than an error. -/
theorem mkMidiNote_invariants (start end_ : ℚ) (pitch velocity : ℤ) (sel : Bool) :
    (0 ≤ (mkMidiNote start end_ pitch velocity sel).pitch ∧
      (mkMidiNote start end_ pitch velocity sel).pitch ≤ 127) ∧
    (0 ≤ (mkMidiNote start end_ pitch velocity sel).velocity ∧
      (mkMidiNote start end_ pitch velocity sel).velocity ≤ 127) ∧
    (0 ≤ (mkMidiNote start end_ pitch velocity sel).start ∧
      (mkMidiNote start end_ pitch velocity sel).start ≤
        (mkMidiNote start end_ pitch velocity sel).end_) ∧
    (end_ < start → (mkMidiNote start end_ pitch velocity sel).duration = 0) := by
  refine ⟨⟨?_, ?_⟩, ⟨?_, ?_⟩, ⟨?_, ?_⟩, ?_⟩
  · exact le_max_left 0 _
  · simp only [mkMidiNote]
    omega
  · exact le_max_left 0 _
  · simp only [mkMidiNote]
    omega
  · exact le_max_left 0 _
  · exact le_max_left _ _
  · intro h
    have hle : end_ ≤ max 0 start :=
      le_trans (le_of_lt h) (le_max_right 0 start)
    simp only [mkMidiNote, MidiNote.duration]
    rw [max_eq_left hle]
    simp

/-- C10 witness: a note supplied with out-of-range pitch and velocity and
`end < start` is clamped into range and repaired to duration zero. -/
theorem mkMidiNote_invariants_witness :
    (0 ≤ (mkMidiNote 5 3 200 (-7) false).pitch ∧
      (mkMidiNote 5 3 200 (-7) false).pitch ≤ 127) ∧
    (0 ≤ (mkMidiNote 5 3 200 (-7) false).velocity ∧
      (mkMidiNote 5 3 200 (-7) false).velocity ≤ 127) ∧
    (0 ≤ (mkMidiNote 5 3 200 (-7) false).start ∧
      (mkMidiNote 5 3 200 (-7) false).start ≤
        (mkMidiNote 5 3 200 (-7) false).end_) ∧
    (mkMidiNote 5 3 200 (-7) false).duration = 0 :=
  ⟨(mkMidiNote_invariants 5 3 200 (-7) false).1,
    (mkMidiNote_invariants 5 3 200 (-7) false).2.1,
    (mkMidiNote_invariants 5 3 200 (-7) false).2.2.1,
    (mkMidiNote_invariants 5 3 200 (-7) false).2.2.2 (by norm_num)⟩

/-- `note.pitch % 12`: the pitch class of a note (Python `%` on a positive
modulus agrees with `Int.emod`). -/
def notePC (n : MidiNote) : Fin 12 :=
  ⟨(n.pitch % 12).toNat, by
    have h1 : 0 ≤ n.pitch % 12 := Int.emod_nonneg _ (by norm_num)
    have h2 : n.pitch % 12 < 12 := Int.emod_lt_of_pos _ (by norm_num)
    omega⟩

/-- The accumulation loop of
`SlidingWindowKeyAnalyzer._analyze_pitch_class_profile`
(`src/analysis/key_analysis.py`, lines 374-398): per note, the overlap with
the analysis window is computed, non-positive overlaps are skipped, and
`overlap_duration * (velocity / 127)` is added to the bin `pitch % 12` and
to the running total.  The note list stands for the notes of all unmuted
tracks; `track_weight` is omitted because `MidiTrack` has no `importance`
attribute, so `getattr(track, 'importance', 1.0)` is always `1.0`. -/
def pcStep (startTime endTime : ℚ) (acc : (Fin 12 → ℚ) × ℚ) (note : MidiNote) :
    (Fin 12 → ℚ) × ℚ :=
  let overlapStart := max note.start startTime
  let overlapEnd := min note.end_ endTime
  if overlapEnd ≤ overlapStart then acc
  else
    let w := (overlapEnd - overlapStart) * ((note.velocity : ℚ) / 127)
    (fun pc => if pc = notePC note then acc.1 pc + w else acc.1 pc, acc.2 + w)

/-- The loop over the notes, starting from the all-zero bins and zero
total (`pitch_weights = np.zeros(12)`, `total_weight = 0.0`). -/
def pcBins (notes : List MidiNote) (startTime endTime : ℚ) : (Fin 12 → ℚ) × ℚ :=
  notes.foldl (pcStep startTime endTime) (fun _ => 0, 0)

/-- The evidence-extraction half of `_analyze_pitch_class_profile`:
`None` when the total accumulated weight is zero, otherwise the
weight-normalized 12-bin profile. -/
def extractPitchProfile (notes : List MidiNote) (startTime endTime : ℚ) :
    Option (Fin 12 → ℚ) :=
  let b := pcBins notes startTime endTime
  if b.2 = 0 then none else some (fun pc => b.1 pc / b.2)

/-- Weight contribution of one note per the spec:
`overlap_duration * (velocity / 127)` when the overlap is positive, else 0. -/
def specNoteWeight (n : MidiNote) (startTime endTime : ℚ) : ℚ :=
  if max n.start startTime < min n.end_ endTime then
    (min n.end_ endTime - max n.start startTime) * ((n.velocity : ℚ) / 127)
  else 0

/-- One bin of the pitch-class profile per the spec: the sum of the weights
of the notes whose pitch class is `pc`. -/
def specBin (notes : List MidiNote) (startTime endTime : ℚ) (pc : Fin 12) : ℚ :=
  (notes.map (fun n => if notePC n = pc then specNoteWeight n startTime endTime else 0)).sum

/-- The total accumulated weight per the spec. -/
def specTotal (notes : List MidiNote) (startTime endTime : ℚ) : ℚ :=
  (notes.map (fun n => specNoteWeight n startTime endTime)).sum

lemma pcBins_go (notes : List MidiNote) (s e : ℚ) :
    ∀ acc : (Fin 12 → ℚ) × ℚ,
      (∀ pc, (notes.foldl (pcStep s e) acc).1 pc =
        acc.1 pc + specBin notes s e pc) ∧
      (notes.foldl (pcStep s e) acc).2 = acc.2 + specTotal notes s e := by
  induction notes with
  | nil =>
    intro acc
    simp [specBin, specTotal]
  | cons n tl ih =>
    intro acc
    have hbin : ∀ pc, specBin (n :: tl) s e pc =
        (if notePC n = pc then specNoteWeight n s e else 0) + specBin tl s e pc := by
      intro pc
      simp [specBin]
    have htot : specTotal (n :: tl) s e =
        specNoteWeight n s e + specTotal tl s e := by
      simp [specTotal]
    simp only [List.foldl_cons]
    by_cases hskip : min n.end_ e ≤ max n.start s
    · have hw : specNoteWeight n s e = 0 := by
        unfold specNoteWeight
        rw [if_neg (not_lt.mpr hskip)]
      have hstep : pcStep s e acc n = acc := by
        unfold pcStep
        rw [if_pos hskip]
      rw [hstep]
      constructor
      · intro pc
        rw [(ih acc).1 pc, hbin pc, hw]
        simp
      · rw [(ih acc).2, htot, hw]
        ring
    · have hlt : max n.start s < min n.end_ e := lt_of_not_le hskip
      have hw : specNoteWeight n s e =
          (min n.end_ e - max n.start s) * ((n.velocity : ℚ) / 127) := by
        unfold specNoteWeight
        rw [if_pos hlt]
      have hstep1 : ∀ pc, (pcStep s e acc n).1 pc =
          if pc = notePC n then
            acc.1 pc + (min n.end_ e - max n.start s) * ((n.velocity : ℚ) / 127)
          else acc.1 pc := by
        intro pc
        unfold pcStep
        rw [if_neg hskip]
      have hstep2 : (pcStep s e acc n).2 =
          acc.2 + (min n.end_ e - max n.start s) * ((n.velocity : ℚ) / 127) := by
        unfold pcStep
        rw [if_neg hskip]
      constructor
      · intro pc
        rw [(ih (pcStep s e acc n)).1 pc, hbin pc, hw, hstep1 pc]
        by_cases hpc : pc = notePC n
        · rw [if_pos hpc, if_pos hpc.symm]
          ring
        · rw [if_neg hpc, if_neg (fun h => hpc h.symm)]
          ring
      · rw [(ih (pcStep s e acc n)).2, htot, hw, hstep2]
        ring

lemma pcBins_eq_spec (notes : List MidiNote) (s e : ℚ) :
    (∀ pc, (pcBins notes s e).1 pc = specBin notes s e pc) ∧
      (pcBins notes s e).2 = specTotal notes s e := by
  have h := pcBins_go notes s e (fun _ => 0, 0)
  refine ⟨fun pc => ?_, ?_⟩
  · have := h.1 pc
    simpa [pcBins] using this
  · have := h.2
    simpa [pcBins] using this

/-- C4: the evidence extractor accumulates, for each note with positive
overlap with the window, `overlap_duration * (velocity / 127)` into bin
`pitch mod 12` (skipping non-positive overlaps), and whenever the total
accumulated weight is zero -- in particular for an empty note list, or a
window disjoint from every note's time range -- it returns `none`, never a
default key. -/
theorem extractPitchProfile_spec (notes : List MidiNote) (s e : ℚ) :
    (∀ pc, (pcBins notes s e).1 pc = specBin notes s e pc) ∧
    (extractPitchProfile notes s e = none ↔ specTotal notes s e = 0) ∧
    extractPitchProfile [] s e = none ∧
    ((∀ n ∈ notes, n.end_ ≤ s ∨ e ≤ n.start) →
      extractPitchProfile notes s e = none) := by
  have hspec := pcBins_eq_spec notes s e
  have hiff : extractPitchProfile notes s e = none ↔ specTotal notes s e = 0 := by
    unfold extractPitchProfile
    rw [← hspec.2]
    by_cases h : (pcBins notes s e).2 = 0
    · simp [h]
    · simp [h]
  refine ⟨hspec.1, hiff, ?_, ?_⟩
  · unfold extractPitchProfile pcBins
    simp
  · intro hdisj
    apply hiff.mpr
    unfold specTotal
    apply List.sum_eq_zero
    intro x hx
    rcases List.mem_map.mp hx with ⟨n, hn, rfl⟩
    unfold specNoteWeight
    rw [if_neg]
    rcases hdisj n hn with h | h
    · intro hlt
      have h1 : min n.end_ e ≤ n.end_ := min_le_left _ _
      have h2 : s ≤ max n.start s := le_max_right _ _
      exact absurd hlt (not_lt.mpr (le_trans h1 (le_trans h h2)))
    · intro hlt
      have h1 : min n.end_ e ≤ e := min_le_right _ _
      have h2 : n.start ≤ max n.start s := le_max_left _ _
      exact absurd hlt (not_lt.mpr (le_trans h1 (le_trans h h2)))

/-- C4 witness: a window `[2, 3]` disjoint from the single note `[0, 1]`
yields no evidence, and the bin/total characterization holds there. -/
theorem extractPitchProfile_spec_witness :
    (pcBins [mkMidiNote 0 1 60 100 false] 2 3).1 0 =
      specBin [mkMidiNote 0 1 60 100 false] 2 3 0 ∧
    (extractPitchProfile [mkMidiNote 0 1 60 100 false] 2 3 = none ↔
      specTotal [mkMidiNote 0 1 60 100 false] 2 3 = 0) ∧
    extractPitchProfile ([] : List MidiNote) 2 3 = none ∧
    extractPitchProfile [mkMidiNote 0 1 60 100 false] 2 3 = none :=
  ⟨(extractPitchProfile_spec [mkMidiNote 0 1 60 100 false] 2 3).1 0,
    (extractPitchProfile_spec [mkMidiNote 0 1 60 100 false] 2 3).2.1,
    (extractPitchProfile_spec [mkMidiNote 0 1 60 100 false] 2 3).2.2.1,
    (extractPitchProfile_spec [mkMidiNote 0 1 60 100 false] 2 3).2.2.2
      (by decide)⟩

/-- The lowercase mode strings `'major'` / `'minor'` of the source. -/
def modeName : Mode → String
  | Mode.major => "major"
  | Mode.minor => "minor"

/-- Python `mode.title()`. -/
def modeTitle : Mode → String
  | Mode.major => "Major"
  | Mode.minor => "Minor"

/-- `SlidingWindowKeyAnalyzer._classify_modulation_type` from
`src/analysis/key_analysis.py`: classifies a stable-key change by the
interval `(to_root - from_root) % 12` and the mode relationship. -/
def classifyModulationType (fromKey toKey : ℤ × Mode) : String :=
  let interval := (toKey.1 - fromKey.1) % 12
  if fromKey.2 = toKey.2 then
    if interval = 7 then "Dominant"
    else if interval = 5 then "Subdominant"
    else if interval = 2 then "Whole Step Up"
    else if interval = 10 then "Whole Step Down"
    else "Parallel " ++ modeTitle fromKey.2
  else
    if fromKey.1 = toKey.1 then
      "Modal (" ++ modeName fromKey.2 ++ " to " ++ modeName toKey.2 ++ ")"
    else if interval = 3 ∧ fromKey.2 = Mode.major ∧ toKey.2 = Mode.minor then
      "Relative Minor"
    else if interval = 9 ∧ fromKey.2 = Mode.minor ∧ toKey.2 = Mode.major then
      "Relative Major"
    else "Mode Change"

/-- C8 counterexample: the code labels same-mode interval 2 as
"Whole Step Up" (not "Step-wise Up"), and has no chromatic cases --
same-mode intervals 1 and 11 fall through to "Parallel <Mode>". -/
theorem classifyModulationType_labels_differ :
    classifyModulationType (0, Mode.major) (2, Mode.major) ≠ "Step-wise Up" ∧
    classifyModulationType (0, Mode.major) (2, Mode.major) = "Whole Step Up" ∧
    classifyModulationType (0, Mode.major) (1, Mode.major) ≠ "Chromatic Up" ∧
    classifyModulationType (0, Mode.major) (1, Mode.major) = "Parallel Major" ∧
    classifyModulationType (0, Mode.major) (11, Mode.major) ≠ "Chromatic Down" ∧
    classifyModulationType (0, Mode.major) (11, Mode.major) = "Parallel Major" := by
  refine ⟨?_, ?_, ?_, ?_, ?_, ?_⟩ <;> decide

/-- C8 (amended): `_classify_modulation_type` is a pure total function --
every (root 0-11, mode) pair of keys gets exactly one label -- following the
priority table: same mode with interval 7 gives "Dominant", 5 gives
"Subdominant", 2 gives "Whole Step Up", 10 gives "Whole Step Down",
any other same-mode interval (including the chromatic intervals 1 and 11)
gives "Parallel <Mode>"; different mode with the same root gives
"Modal (<from> to <to>)", interval 3 from major to minor gives
"Relative Minor", interval 9 from minor to major gives "Relative Major",
and any remaining pair gets the generic "Mode Change" label. -/
theorem classifyModulationType_table (fr tr : Fin 12) (fm tm : Mode) :
    (fm = tm → ((tr : ℤ) - (fr : ℤ)) % 12 = 7 →
      classifyModulationType ((fr : ℤ), fm) ((tr : ℤ), tm) = "Dominant") ∧
    (fm = tm → ((tr : ℤ) - (fr : ℤ)) % 12 = 5 →
      classifyModulationType ((fr : ℤ), fm) ((tr : ℤ), tm) = "Subdominant") ∧
    (fm = tm → ((tr : ℤ) - (fr : ℤ)) % 12 = 2 →
      classifyModulationType ((fr : ℤ), fm) ((tr : ℤ), tm) = "Whole Step Up") ∧
    (fm = tm → ((tr : ℤ) - (fr : ℤ)) % 12 = 10 →
      classifyModulationType ((fr : ℤ), fm) ((tr : ℤ), tm) = "Whole Step Down") ∧
    (fm = tm → ((tr : ℤ) - (fr : ℤ)) % 12 ≠ 7 → ((tr : ℤ) - (fr : ℤ)) % 12 ≠ 5 →
      ((tr : ℤ) - (fr : ℤ)) % 12 ≠ 2 → ((tr : ℤ) - (fr : ℤ)) % 12 ≠ 10 →
      classifyModulationType ((fr : ℤ), fm) ((tr : ℤ), tm) =
        "Parallel " ++ modeTitle fm) ∧
    (fm ≠ tm → fr = tr →
      classifyModulationType ((fr : ℤ), fm) ((tr : ℤ), tm) =
        "Modal (" ++ modeName fm ++ " to " ++ modeName tm ++ ")") ∧
    (fm ≠ tm → fr ≠ tr → ((tr : ℤ) - (fr : ℤ)) % 12 = 3 → fm = Mode.major →
      tm = Mode.minor →
      classifyModulationType ((fr : ℤ), fm) ((tr : ℤ), tm) = "Relative Minor") ∧
    (fm ≠ tm → fr ≠ tr → ((tr : ℤ) - (fr : ℤ)) % 12 = 9 → fm = Mode.minor →
      tm = Mode.major →
      classifyModulationType ((fr : ℤ), fm) ((tr : ℤ), tm) = "Relative Major") ∧
    (fm ≠ tm → fr ≠ tr →
      ¬(((tr : ℤ) - (fr : ℤ)) % 12 = 3 ∧ fm = Mode.major ∧ tm = Mode.minor) →
      ¬(((tr : ℤ) - (fr : ℤ)) % 12 = 9 ∧ fm = Mode.minor ∧ tm = Mode.major) →
      classifyModulationType ((fr : ℤ), fm) ((tr : ℤ), tm) = "Mode Change") := by
  refine ⟨?_, ?_, ?_, ?_, ?_, ?_, ?_, ?_, ?_⟩ <;>
    (revert fr tr fm tm; decide)

/-- C8 witness: worked examples for the table at concrete keys. -/
theorem classifyModulationType_table_witness :
    classifyModulationType (0, Mode.major) (7, Mode.major) = "Dominant" ∧
    classifyModulationType (0, Mode.major) (3, Mode.minor) = "Relative Minor" ∧
    classifyModulationType (0, Mode.minor) (9, Mode.major) = "Relative Major" :=
  ⟨(classifyModulationType_table 0 7 Mode.major Mode.major).1 rfl (by decide),
    ((classifyModulationType_table 0 3 Mode.major Mode.minor).2.2.2.2.2.2.1
      (by decide) (by decide) (by decide) rfl rfl),
    ((classifyModulationType_table 0 9 Mode.minor Mode.major).2.2.2.2.2.2.2.1
      (by decide) (by decide) (by decide) rfl rfl)⟩

/-- The strict-improvement scan shared by the source's argmax loops
(`best = x if val x > best else best`): Python's `max` over an iterable and
the explicit `correlation > best_correlation` loops both keep the first
maximal element. -/
def maxFold {ι α : Type} [LinearOrder α] (val : ι → α) (l : List ι)
    (acc : α × Option ι) : α × Option ι :=
  l.foldl (fun a c => if a.1 < val c then (val c, some c) else a) acc

lemma maxFold_cases {ι α : Type} [LinearOrder α] (val : ι → α) :
    ∀ (l : List ι) (b : α) (k : Option ι),
      (maxFold val l (b, k) = (b, k) ∧ ∀ c ∈ l, val c ≤ b) ∨
      (∃ l1 c l2, l = l1 ++ c :: l2 ∧ maxFold val l (b, k) = (val c, some c) ∧
        b < val c ∧ (∀ d ∈ l1, val d < val c) ∧ (∀ d ∈ l2, val d ≤ val c)) := by
  intro l
  induction l with
  | nil =>
    intro b k
    left
    exact ⟨rfl, by simp⟩
  | cons a tl ih =>
    intro b k
    by_cases h : b < val a
    · have hstep : maxFold val (a :: tl) (b, k) = maxFold val tl (val a, some a) := by
        simp [maxFold, h]
      rcases ih (val a) (some a) with ⟨heq, hle⟩ |
        ⟨l1, c, l2, hsplit, heq, hlt, hbefore, hafter⟩
      · right
        exact ⟨[], a, tl, by simp, by rw [hstep, heq], h, by simp, hle⟩
      · right
        refine ⟨a :: l1, c, l2, by rw [hsplit]; rfl, by rw [hstep, heq],
          lt_trans h hlt, ?_, hafter⟩
        intro d hd
        rcases List.mem_cons.mp hd with rfl | hd
        · exact hlt
        · exact hbefore d hd
    · have hstep : maxFold val (a :: tl) (b, k) = maxFold val tl (b, k) := by
        simp [maxFold, h]
      rcases ih b k with ⟨heq, hle⟩ |
        ⟨l1, c, l2, hsplit, heq, hlt, hbefore, hafter⟩
      · left
        refine ⟨by rw [hstep, heq], ?_⟩
        intro d hd
        rcases List.mem_cons.mp hd with rfl | hd
        · exact not_lt.mp h
        · exact hle d hd
      · right
        refine ⟨a :: l1, c, l2, by rw [hsplit]; rfl, by rw [hstep, heq], hlt, ?_, hafter⟩
        intro d hd
        rcases List.mem_cons.mp hd with rfl | hd
        · exact lt_of_le_of_lt (not_lt.mp h) hlt
        · exact hbefore d hd

/-- The analysis methods of `_analyze_window`. -/
inductive AnalysisMethod
  | prettymidi
  | pitch_class
  | harmonic
  | melodic
deriving DecidableEq, Repr

/-- The `method_weights` dict of `_combine_analyses`
(`src/analysis/key_analysis.py`, lines 546-551).  The dict is defined in
the source but never applied: the loop below it uses
`weight = confidence` only. -/
def methodWeights : AnalysisMethod → ℚ
  | AnalysisMethod.prettymidi => 0.8
  | AnalysisMethod.pitch_class => 1.0
  | AnalysisMethod.harmonic => 0.9
  | AnalysisMethod.melodic => 0.7

/-- The keys of the `weighted_votes` defaultdict in Python insertion order:
first occurrence order of `(root, mode)` in `results`. -/
def keysInOrder (results : List (ℤ × Mode × ℚ)) : List (ℤ × Mode) :=
  results.foldl
    (fun acc r => if (r.1, r.2.1) ∈ acc then acc else acc ++ [(r.1, r.2.1)]) []

/-- The final value `weighted_votes[k]`: the summed confidence of the
results voting for key `k` (`weight = confidence` in the source). -/
def votes (results : List (ℤ × Mode × ℚ)) (k : ℤ × Mode) : ℚ :=
  ((results.filter (fun r => (r.1, r.2.1) = k)).map (fun r => r.2.2)).sum

/-- `total_weight`: the sum of all confidences. -/
def totalWeight (results : List (ℤ × Mode × ℚ)) : ℚ :=
  (results.map (fun r => r.2.2)).sum

/-- `SlidingWindowKeyAnalyzer._combine_analyses` from
`src/analysis/key_analysis.py`: `None` for no results or zero total weight,
otherwise the first key with maximal summed vote (Python `max` over the
defaultdict items keeps the first maximal item in insertion order) with
final confidence `winning weight / total weight` and method `"combined"`. -/
def combineAnalyses (results : List (ℤ × Mode × ℚ)) :
    Option ((ℤ × Mode) × ℚ × String) :=
  if results.isEmpty then none
  else if totalWeight results = 0 then none
  else
    match keysInOrder results with
    | [] => none
    | k0 :: rest =>
      match maxFold (votes results) rest (votes results k0, some k0) with
      | (bw, some bk) => some (bk, bw / totalWeight results, "combined")
      | (_, none) => none

/-- The claimed combination weight of a key: the sum over the labeled
evidence sources voting for it of `confidence * method_reliability`
(modelled from the claim's words; the source's `_combine_analyses` receives
the results without their method labels). -/
def claimWeight (labeled : List (AnalysisMethod × ℤ × Mode × ℚ)) (k : ℤ × Mode) : ℚ :=
  ((labeled.filter (fun r => (r.2.1, r.2.2.1) = k)).map
    (fun r => r.2.2.2 * methodWeights r.1)).sum

/-- C5 counterexample: a prettymidi vote (reliability 0.8, confidence 0.9)
for key (0, major) and a pitch-class vote (reliability 1.0, confidence
0.85) for key (1, major).  Under the claimed rule
`weight = confidence * method_reliability` the winner would be (1, major)
(0.85 > 0.72), but `_combine_analyses` never multiplies by the
reliability table and picks (0, major) (0.9 > 0.85). -/
theorem combineAnalyses_ignores_reliability :
    combineAnalyses [(0, Mode.major, 9/10), (1, Mode.major, 17/20)] =
      some ((0, Mode.major), 18/35, "combined") ∧
    claimWeight
        [(AnalysisMethod.prettymidi, 0, Mode.major, 9/10),
          (AnalysisMethod.pitch_class, 1, Mode.major, 17/20)]
        (0, Mode.major) <
      claimWeight
        [(AnalysisMethod.prettymidi, 0, Mode.major, 9/10),
          (AnalysisMethod.pitch_class, 1, Mode.major, 17/20)]
        (1, Mode.major) := by
  constructor
  · norm_num [combineAnalyses, totalWeight, keysInOrder, votes, maxFold,
      List.foldl, List.filter]
  · norm_num [claimWeight, methodWeights, List.filter]

/-- C5 (amended): `_combine_analyses` is a weighted vote in which each
source's weight is its confidence alone (the per-method reliability table
is defined but not applied); the winning (root, mode) is the first key, in
insertion order, with the highest summed weight, and the final confidence
is the winning weight divided by the total weight. -/
theorem combineAnalyses_weighted_vote (results : List (ℤ × Mode × ℚ)) :
    (results = [] → combineAnalyses results = none) ∧
    (totalWeight results = 0 → combineAnalyses results = none) ∧
    (∀ k c m, combineAnalyses results = some (k, c, m) →
      c = votes results k / totalWeight results ∧ m = "combined" ∧
      (∀ k2 ∈ keysInOrder results, votes results k2 ≤ votes results k) ∧
      (∃ l1 l2, keysInOrder results = l1 ++ k :: l2 ∧
        ∀ k2 ∈ l1, votes results k2 < votes results k)) := by
  refine ⟨?_, ?_, ?_⟩
  · intro h
    rw [h]
    rfl
  · intro h
    unfold combineAnalyses
    by_cases hemp : results.isEmpty
    · rw [if_pos hemp]
    · rw [if_neg hemp, if_pos h]
  · intro k c m hsome
    unfold combineAnalyses at hsome
    by_cases hemp : results.isEmpty
    · rw [if_pos hemp] at hsome
      exact absurd hsome (by simp)
    · rw [if_neg hemp] at hsome
      by_cases htot : totalWeight results = 0
      · rw [if_pos htot] at hsome
        exact absurd hsome (by simp)
      · rw [if_neg htot] at hsome
        cases hko : keysInOrder results with
        | nil =>
          rw [hko] at hsome
          exact absurd hsome (by simp)
        | cons k0 rest =>
          rw [hko] at hsome
          dsimp only at hsome
          rcases maxFold_cases (votes results) rest (votes results k0) (some k0) with
            ⟨heq, hle⟩ | ⟨l1, kc, l2, hsplit, heq, hlt, hbefore, hafter⟩
          · rw [heq] at hsome
            dsimp only at hsome
            simp only [Option.some.injEq, Prod.mk.injEq] at hsome
            obtain ⟨hk, hc, hm⟩ := hsome
            subst hk
            refine ⟨hc.symm, hm.symm, ?_, [], rest, by simp, by simp⟩
            intro k2 hk2
            rcases List.mem_cons.mp hk2 with rfl | hk2
            · exact le_refl _
            · exact hle k2 hk2
          · rw [heq] at hsome
            dsimp only at hsome
            simp only [Option.some.injEq, Prod.mk.injEq] at hsome
            obtain ⟨hk, hc, hm⟩ := hsome
            subst hk
            refine ⟨hc.symm, hm.symm, ?_, k0 :: l1, l2, by rw [hsplit]; rfl, ?_⟩
            · intro k2 hk2
              rw [hsplit] at hk2
              rcases List.mem_cons.mp hk2 with rfl | hk2
              · exact le_of_lt hlt
              · rcases List.mem_append.mp hk2 with hk2 | hk2
                · exact le_of_lt (hbefore k2 hk2)
                · rcases List.mem_cons.mp hk2 with rfl | hk2
                  · exact le_refl _
                  · exact hafter k2 hk2
            · intro k2 hk2
              rcases List.mem_cons.mp hk2 with rfl | hk2
              · exact hlt
              · exact hbefore k2 hk2

/-- C5 witness: two equal-weight votes -- the tie goes to the
first-encountered key, with confidence `winning / total`. -/
theorem combineAnalyses_weighted_vote_witness :
    (1 : ℚ) / 2 = votes [(0, Mode.major, 1/2), (7, Mode.major, 1/2)] (0, Mode.major) /
        totalWeight [(0, Mode.major, 1/2), (7, Mode.major, 1/2)] ∧
      "combined" = "combined" ∧
      (∀ k2 ∈ keysInOrder [(0, Mode.major, 1/2), (7, Mode.major, 1/2)],
        votes [(0, Mode.major, 1/2), (7, Mode.major, 1/2)] k2 ≤
          votes [(0, Mode.major, 1/2), (7, Mode.major, 1/2)] (0, Mode.major)) ∧
      (∃ l1 l2, keysInOrder [(0, Mode.major, 1/2), (7, Mode.major, 1/2)] =
          l1 ++ (0, Mode.major) :: l2 ∧
        ∀ k2 ∈ l1, votes [(0, Mode.major, 1/2), (7, Mode.major, 1/2)] k2 <
          votes [(0, Mode.major, 1/2), (7, Mode.major, 1/2)] (0, Mode.major)) :=
  (combineAnalyses_weighted_vote [(0, Mode.major, 1/2), (7, Mode.major, 1/2)]).2.2
    (0, Mode.major) (1/2) "combined"
    (by norm_num [combineAnalyses, totalWeight, keysInOrder, votes, maxFold,
      List.foldl, List.filter])

/-- `KeyAnalysisPoint` from `src/analysis/key_analysis.py`.  The
`supporting_evidence` dict is modelled as an association list from method
name to result triple. -/
structure KeyAnalysisPoint where
  time : ℚ
  measure : Option ℤ
  beat : Option ℚ
  root : ℤ
  mode : Mode
  confidence : ℚ
  analysis_method : String
  supporting_evidence : List (String × ℤ × Mode × ℚ)
  window_size : ℚ
deriving DecidableEq, Repr

/-- `TonalityTransition` from `src/analysis/key_analysis.py`. -/
structure TonalityTransition where
  from_time : ℚ
  to_time : ℚ
  from_key : ℤ × Mode
  to_key : ℤ × Mode
  transition_strength : ℚ
  pivot_chords : List String
  modulation_type : String
deriving DecidableEq, Repr

/-- The constructor parameters of `SlidingWindowKeyAnalyzer.__init__`. -/
structure AnalyzerConfig where
  base_window_measures : ℚ
  overlap_ratio : ℚ
  confidence_threshold : ℚ
  stability_threshold : ℕ
  adaptive_window : Bool
deriving DecidableEq, Repr

/-- The default constructor arguments (2.0, 0.5, 0.65, 3, True). -/
def defaultConfig : AnalyzerConfig := ⟨2, 1/2, 65/100, 3, true⟩

/-- The mutable analysis state touched by `_update_stability_tracking`:
the trailing deque (oldest first), the current stable key and the recorded
transitions. -/
structure AnalyzerState where
  stability_buffer : List ((ℤ × Mode) × ℚ)
  current_stable_key : Option (ℤ × Mode)
  key_transitions : List TonalityTransition
deriving DecidableEq, Repr

/-- The state after `__init__` / at the start of `analyze_by_measures`. -/
def initState : AnalyzerState := ⟨[], none, []⟩

/-- `deque(maxlen=m).append(x)`: append and drop from the left when the
length exceeds `m`. -/
def deqAppend {α : Type} (maxlen : ℕ) (buf : List α) (x : α) : List α :=
  let b := buf ++ [x]
  if maxlen < b.length then b.drop (b.length - maxlen) else b

/-- The keys of the `key_counts` defaultdict in Python insertion order:
first occurrence order over the buffer. -/
def bufferKeysInOrder (buf : List ((ℤ × Mode) × ℚ)) : List (ℤ × Mode) :=
  buf.foldl (fun acc r => if r.1 ∈ acc then acc else acc ++ [r.1]) []

/-- The final value `key_counts[k]`. -/
def keyCount (buf : List ((ℤ × Mode) × ℚ)) (k : ℤ × Mode) : ℕ :=
  (buf.filter (fun r => r.1 = k)).length

/-- The final value `total_confidence[k]`. -/
def keyTotalConfidence (buf : List ((ℤ × Mode) × ℚ)) (k : ℤ × Mode) : ℚ :=
  ((buf.filter (fun r => r.1 = k)).map (fun r => r.2)).sum

/-- `SlidingWindowKeyAnalyzer._record_key_transition`. -/
def recordKeyTransition (cfg : AnalyzerConfig) (time : ℚ)
    (from_key to_key : ℤ × Mode) : TonalityTransition :=
  ⟨time - cfg.base_window_measures, time, from_key, to_key, 8/10, [],
    classifyModulationType from_key to_key⟩

/-- `SlidingWindowKeyAnalyzer._update_stability_tracking` from
`src/analysis/key_analysis.py`: push `(key, confidence)` onto the deque;
once it is full, find the most frequent key (Python `max` keeps the first
maximal item in insertion order); if its count is at least
`stability_threshold - 1` AND its average confidence reaches the
confidence threshold AND it differs from the current stable key, promote it
and, when an old stable key existed, record a transition at the point's
time. -/
def updateStabilityTracking (cfg : AnalyzerConfig) (st : AnalyzerState)
    (pt : KeyAnalysisPoint) : AnalyzerState :=
  let ck : ℤ × Mode := (pt.root, pt.mode)
  let buf := deqAppend cfg.stability_threshold st.stability_buffer (ck, pt.confidence)
  if cfg.stability_threshold ≤ buf.length then
    match bufferKeysInOrder buf with
    | [] => ⟨buf, st.current_stable_key, st.key_transitions⟩
    | k0 :: rest =>
      match maxFold (keyCount buf) rest (keyCount buf k0, some k0) with
      | (cnt, some mk) =>
        if cfg.stability_threshold - 1 ≤ cnt then
          if cfg.confidence_threshold ≤ keyTotalConfidence buf mk / (cnt : ℚ) then
            if st.current_stable_key ≠ some mk then
              ⟨buf, some mk,
                match st.current_stable_key with
                | some old =>
                  st.key_transitions ++ [recordKeyTransition cfg pt.time old mk]
                | none => st.key_transitions⟩
            else ⟨buf, st.current_stable_key, st.key_transitions⟩
          else ⟨buf, st.current_stable_key, st.key_transitions⟩
        else ⟨buf, st.current_stable_key, st.key_transitions⟩
      | (_, none) => ⟨buf, st.current_stable_key, st.key_transitions⟩
  else ⟨buf, st.current_stable_key, st.key_transitions⟩

/-- A bare analysis point carrying the fields the tracker reads. -/
def mkPoint (time : ℚ) (root : ℤ) (mode : Mode) (confidence : ℚ) :
    KeyAnalysisPoint :=
  ⟨time, none, none, root, mode, confidence, "combined", [], 2⟩

/-- C6 counterexample: a full buffer `[A, A, B]` whose most frequent pair A
has count 2 = stability_threshold - 1 and differs from the (absent) stable
key, yet A is NOT promoted, because the code additionally requires the
average confidence of A's entries (here 0.3) to reach the confidence
threshold -- a condition the claim omits. -/
theorem updateStabilityTracking_requires_confidence :
    (updateStabilityTracking defaultConfig
      (updateStabilityTracking defaultConfig
        (updateStabilityTracking defaultConfig initState
          (mkPoint 1 0 Mode.major (3/10)))
        (mkPoint 2 0 Mode.major (3/10)))
      (mkPoint 3 7 Mode.major (9/10))).stability_buffer =
        [((0, Mode.major), 3/10), ((0, Mode.major), 3/10),
          ((7, Mode.major), 9/10)] ∧
    keyCount
      [((0, Mode.major), 3/10), ((0, Mode.major), 3/10), ((7, Mode.major), 9/10)]
      (0, Mode.major) = 2 ∧
    defaultConfig.stability_threshold - 1 ≤ 2 ∧
    (updateStabilityTracking defaultConfig
      (updateStabilityTracking defaultConfig
        (updateStabilityTracking defaultConfig initState
          (mkPoint 1 0 Mode.major (3/10)))
        (mkPoint 2 0 Mode.major (3/10)))
      (mkPoint 3 7 Mode.major (9/10))).current_stable_key = none ∧
    (updateStabilityTracking defaultConfig
      (updateStabilityTracking defaultConfig
        (updateStabilityTracking defaultConfig initState
          (mkPoint 1 0 Mode.major (3/10)))
        (mkPoint 2 0 Mode.major (3/10)))
      (mkPoint 3 7 Mode.major (9/10))).key_transitions = [] := by
  refine ⟨?_, ?_, ?_, ?_, ?_⟩ <;>
    norm_num [updateStabilityTracking, deqAppend, bufferKeysInOrder, keyCount,
      keyTotalConfidence, maxFold, recordKeyTransition, defaultConfig, mkPoint,
      initState, List.foldl, List.filter]

/-- C6 (amended): `_update_stability_tracking` pushes the estimate onto the
trailing deque; while the deque is short of `stability_threshold` nothing
else changes; once it is full, the first most-frequent key `mk` is promoted
to stable -- emitting a transition stamped at the current point's time when
an old stable key existed -- exactly when its count reaches
`stability_threshold - 1` AND its average confidence reaches the
confidence threshold AND it differs from the current stable key.
Concretely (at full confidence): a buffer `[A, A, B]` promotes A, and a
buffer `[A, B, C]` with no repeats promotes nothing. -/
theorem updateStabilityTracking_majority_rule (cfg : AnalyzerConfig)
    (st : AnalyzerState) (pt : KeyAnalysisPoint) :
    ((updateStabilityTracking cfg st pt).stability_buffer =
      deqAppend cfg.stability_threshold st.stability_buffer
        ((pt.root, pt.mode), pt.confidence)) ∧
    (∀ buf, buf = deqAppend cfg.stability_threshold st.stability_buffer
        ((pt.root, pt.mode), pt.confidence) →
      buf.length < cfg.stability_threshold →
      (updateStabilityTracking cfg st pt).current_stable_key =
          st.current_stable_key ∧
        (updateStabilityTracking cfg st pt).key_transitions =
          st.key_transitions) ∧
    (∀ buf, buf = deqAppend cfg.stability_threshold st.stability_buffer
        ((pt.root, pt.mode), pt.confidence) →
      ∀ k0 rest cnt mk,
        cfg.stability_threshold ≤ buf.length →
        bufferKeysInOrder buf = k0 :: rest →
        maxFold (keyCount buf) rest (keyCount buf k0, some k0) = (cnt, some mk) →
        ((cfg.stability_threshold - 1 ≤ cnt ∧
          cfg.confidence_threshold ≤ keyTotalConfidence buf mk / (cnt : ℚ) ∧
          st.current_stable_key ≠ some mk) →
          (updateStabilityTracking cfg st pt).current_stable_key = some mk ∧
          (updateStabilityTracking cfg st pt).key_transitions =
            (match st.current_stable_key with
              | some old =>
                st.key_transitions ++ [recordKeyTransition cfg pt.time old mk]
              | none => st.key_transitions)) ∧
        (¬(cfg.stability_threshold - 1 ≤ cnt ∧
          cfg.confidence_threshold ≤ keyTotalConfidence buf mk / (cnt : ℚ) ∧
          st.current_stable_key ≠ some mk) →
          (updateStabilityTracking cfg st pt).current_stable_key =
              st.current_stable_key ∧
            (updateStabilityTracking cfg st pt).key_transitions =
              st.key_transitions)) ∧
    ((updateStabilityTracking defaultConfig
      (updateStabilityTracking defaultConfig
        (updateStabilityTracking defaultConfig initState
          (mkPoint 1 0 Mode.major (9/10)))
        (mkPoint 2 0 Mode.major (9/10)))
      (mkPoint 3 7 Mode.major (9/10))).current_stable_key =
        some (0, Mode.major) ∧
      (updateStabilityTracking defaultConfig
        (updateStabilityTracking defaultConfig
          (updateStabilityTracking defaultConfig initState
            (mkPoint 1 0 Mode.major (9/10)))
          (mkPoint 2 0 Mode.major (9/10)))
        (mkPoint 3 7 Mode.major (9/10))).key_transitions = []) ∧
    ((updateStabilityTracking defaultConfig
      (updateStabilityTracking defaultConfig
        (updateStabilityTracking defaultConfig initState
          (mkPoint 1 0 Mode.major (9/10)))
        (mkPoint 2 7 Mode.major (9/10)))
      (mkPoint 3 4 Mode.major (9/10))).current_stable_key = none ∧
      (updateStabilityTracking defaultConfig
        (updateStabilityTracking defaultConfig
          (updateStabilityTracking defaultConfig initState
            (mkPoint 1 0 Mode.major (9/10)))
          (mkPoint 2 7 Mode.major (9/10)))
        (mkPoint 3 4 Mode.major (9/10))).key_transitions = []) := by
  refine ⟨?_, ?_, ?_, ?_, ?_⟩
  · simp only [updateStabilityTracking]
    repeat' split
    all_goals rfl
  · intro buf hbuf hlen
    simp only [updateStabilityTracking]
    rw [← hbuf, if_neg (not_le.mpr hlen)]
    exact ⟨rfl, rfl⟩
  · intro buf hbuf k0 rest cnt mk hlen hko hmax
    simp only [updateStabilityTracking]
    rw [← hbuf, if_pos hlen, hko]
    dsimp only
    rw [hmax]
    dsimp only
    constructor
    · rintro ⟨hcnt, hconf, hne⟩
      rw [if_pos hcnt, if_pos hconf, if_pos hne]
      exact ⟨rfl, rfl⟩
    · intro hneg
      by_cases hcnt : cfg.stability_threshold - 1 ≤ cnt
      · rw [if_pos hcnt]
        by_cases hconf : cfg.confidence_threshold ≤
            keyTotalConfidence buf mk / (cnt : ℚ)
        · rw [if_pos hconf]
          by_cases hne : st.current_stable_key ≠ some mk
          · exact absurd ⟨hcnt, hconf, hne⟩ hneg
          · rw [if_neg hne]
            exact ⟨rfl, rfl⟩
        · rw [if_neg hconf]
          exact ⟨rfl, rfl⟩
      · rw [if_neg hcnt]
        exact ⟨rfl, rfl⟩
  · constructor <;>
      norm_num [updateStabilityTracking, deqAppend, bufferKeysInOrder, keyCount,
        keyTotalConfidence, maxFold, recordKeyTransition, defaultConfig, mkPoint,
        initState, List.foldl, List.filter, reduceCtorEq] <;> rfl
  · constructor <;>
      norm_num [updateStabilityTracking, deqAppend, bufferKeysInOrder, keyCount,
        keyTotalConfidence, maxFold, recordKeyTransition, defaultConfig, mkPoint,
        initState, List.foldl, List.filter, reduceCtorEq]

/-- C6 witness: a state with buffer `[A, A]` at full confidence receiving a
third estimate B is promoted to stable key A, with no transition since no
stable key existed before. -/
theorem updateStabilityTracking_majority_rule_witness :
    (updateStabilityTracking defaultConfig
      ⟨[((0, Mode.major), 9/10), ((0, Mode.major), 9/10)], none, []⟩
      (mkPoint 3 7 Mode.major (9/10))).current_stable_key =
        some (0, Mode.major) ∧
    (updateStabilityTracking defaultConfig
      ⟨[((0, Mode.major), 9/10), ((0, Mode.major), 9/10)], none, []⟩
      (mkPoint 3 7 Mode.major (9/10))).key_transitions = [] :=
  ((updateStabilityTracking_majority_rule defaultConfig
      ⟨[((0, Mode.major), 9/10), ((0, Mode.major), 9/10)], none, []⟩
      (mkPoint 3 7 Mode.major (9/10))).2.2.1
    [((0, Mode.major), 9/10), ((0, Mode.major), 9/10), ((7, Mode.major), 9/10)]
    (by norm_num [deqAppend, mkPoint, defaultConfig])
    (0, Mode.major) [(7, Mode.major)] 2 (0, Mode.major)
    (by norm_num [defaultConfig])
    (by norm_num [bufferKeysInOrder, List.foldl])
    (by norm_num [maxFold, keyCount, List.foldl, List.filter])).1
    ⟨by norm_num [defaultConfig],
      by norm_num [defaultConfig, keyTotalConfidence, List.filter],
      by simp⟩

/-- The condition of `_smooth_key_analysis` for mutating an interior point:
its neighbors share a key, its own key differs, and its confidence is below
`confidence_threshold + 0.1`. -/
def smoothCond (cfg : AnalyzerConfig) (prev curr next : KeyAnalysisPoint) : Prop :=
  ((prev.root, prev.mode) = (next.root, next.mode)) ∧
  ((curr.root, curr.mode) ≠ (prev.root, prev.mode)) ∧
  curr.confidence < cfg.confidence_threshold + 1/10

instance instDecSmoothCond (cfg : AnalyzerConfig) (prev curr next : KeyAnalysisPoint) :
    Decidable (smoothCond cfg prev curr next) := by
  unfold smoothCond
  infer_instance

/-- The in-place mutation of `_smooth_key_analysis`: the point's root and
mode are overwritten with the neighbor key and `" (smoothed)"` is appended
to `analysis_method`; all other fields are kept. -/
def smoothedPoint (prev curr : KeyAnalysisPoint) : KeyAnalysisPoint :=
  ⟨curr.time, curr.measure, curr.beat, prev.root, prev.mode, curr.confidence,
    curr.analysis_method ++ " (smoothed)", curr.supporting_evidence,
    curr.window_size⟩

/-- The loop `for i in range(1, len(points) - 1)` of `_smooth_key_analysis`,
walking left to right with the (possibly already smoothed) left neighbor as
`prev`; the final point is never modified. -/
def smoothAux (cfg : AnalyzerConfig) (prev : KeyAnalysisPoint) :
    List KeyAnalysisPoint → List KeyAnalysisPoint
  | [] => []
  | [c] => [c]
  | c :: next :: rest =>
    if smoothCond cfg prev c next then
      smoothedPoint prev c :: smoothAux cfg (smoothedPoint prev c) (next :: rest)
    else
      c :: smoothAux cfg c (next :: rest)

/-- `SlidingWindowKeyAnalyzer._smooth_key_analysis` from
`src/analysis/key_analysis.py`: a no-op for fewer than 3 points, otherwise
the left-to-right single pass over the interior points. -/
def smoothKeyAnalysis (cfg : AnalyzerConfig) (points : List KeyAnalysisPoint) :
    List KeyAnalysisPoint :=
  if points.length < 3 then points
  else
    match points with
    | [] => []
    | p0 :: rest => p0 :: smoothAux cfg p0 rest

/-- The fields of an analysis point that `_smooth_key_analysis` never
touches. -/
def frameOf (p : KeyAnalysisPoint) :
    ℚ × Option ℤ × Option ℚ × ℚ × List (String × ℤ × Mode × ℚ) × ℚ :=
  (p.time, p.measure, p.beat, p.confidence, p.supporting_evidence, p.window_size)

/-- C7 counterexample: smoothing an isolated low-confidence outlier also
appends `" (smoothed)"` to its `analysis_method`, so the claim that every
field other than root and mode is left unchanged fails. -/
theorem smoothKeyAnalysis_mutates_method :
    ((smoothKeyAnalysis defaultConfig
      [mkPoint 0 0 Mode.major (9/10), mkPoint 1 7 Mode.major (7/10),
        mkPoint 2 0 Mode.major (9/10)]).getD 1
        (mkPoint 0 0 Mode.major 0)).analysis_method = "combined (smoothed)" ∧
    ((smoothKeyAnalysis defaultConfig
      [mkPoint 0 0 Mode.major (9/10), mkPoint 1 7 Mode.major (7/10),
        mkPoint 2 0 Mode.major (9/10)]).getD 1
        (mkPoint 0 0 Mode.major 0)).analysis_method ≠
      (mkPoint 1 7 Mode.major (7/10)).analysis_method := by
  constructor <;>
    norm_num [smoothKeyAnalysis, smoothAux, smoothCond, smoothedPoint, mkPoint,
      defaultConfig, List.getD] <;> decide

lemma smoothAux_length (cfg : AnalyzerConfig) :
    ∀ (l : List KeyAnalysisPoint) (prev : KeyAnalysisPoint),
      (smoothAux cfg prev l).length = l.length := by
  intro l
  induction l with
  | nil => intro prev; rfl
  | cons c tl ih =>
    intro prev
    cases tl with
    | nil => rfl
    | cons next rest =>
      simp only [smoothAux]
      by_cases hc : smoothCond cfg prev c next
      · rw [if_pos hc]
        simp [ih]
      · rw [if_neg hc]
        simp [ih]

lemma smoothAux_frame (cfg : AnalyzerConfig) (d : KeyAnalysisPoint) :
    ∀ (l : List KeyAnalysisPoint) (prev : KeyAnalysisPoint) (i : ℕ),
      frameOf ((smoothAux cfg prev l).getD i d) = frameOf (l.getD i d) := by
  intro l
  induction l with
  | nil => intro prev i; rfl
  | cons c tl ih =>
    intro prev i
    cases tl with
    | nil => rfl
    | cons next rest =>
      simp only [smoothAux]
      by_cases hc : smoothCond cfg prev c next
      · rw [if_pos hc]
        cases i with
        | zero => rfl
        | succ j =>
          simp only [List.getD_cons_succ]
          exact ih (smoothedPoint prev c) j
      · rw [if_neg hc]
        cases i with
        | zero => rfl
        | succ j =>
          simp only [List.getD_cons_succ]
          exact ih c j

lemma smoothAux_last (cfg : AnalyzerConfig) (d : KeyAnalysisPoint) :
    ∀ (l : List KeyAnalysisPoint) (prev : KeyAnalysisPoint) (i : ℕ),
      i + 1 = l.length → (smoothAux cfg prev l).getD i d = l.getD i d := by
  intro l
  induction l with
  | nil =>
    intro prev i hi
    simp at hi
  | cons c tl ih =>
    intro prev i hi
    cases tl with
    | nil =>
      have : i = 0 := by simpa using hi
      subst this
      rfl
    | cons next rest =>
      have hlen : (c :: next :: rest).length = rest.length + 2 := by simp
      rw [hlen] at hi
      cases i with
      | zero => omega
      | succ j =>
        have hj : j + 1 = (next :: rest).length := by simp; omega
        simp only [smoothAux]
        by_cases hc : smoothCond cfg prev c next
        · rw [if_pos hc]
          simp only [List.getD_cons_succ]
          exact ih (smoothedPoint prev c) j hj
        · rw [if_neg hc]
          simp only [List.getD_cons_succ]
          exact ih c j hj

lemma smoothAux_char (cfg : AnalyzerConfig) (d : KeyAnalysisPoint) :
    ∀ (l : List KeyAnalysisPoint) (prev : KeyAnalysisPoint) (i : ℕ),
      i + 1 < l.length →
      ∀ pv, pv = (if i = 0 then prev else (smoothAux cfg prev l).getD (i - 1) d) →
      (smoothCond cfg pv (l.getD i d) (l.getD (i + 1) d) →
        (smoothAux cfg prev l).getD i d = smoothedPoint pv (l.getD i d)) ∧
      (¬ smoothCond cfg pv (l.getD i d) (l.getD (i + 1) d) →
        (smoothAux cfg prev l).getD i d = l.getD i d) := by
  intro l
  induction l with
  | nil =>
    intro prev i hi
    simp at hi
  | cons c tl ih =>
    intro prev i hi pv hpv
    cases tl with
    | nil =>
      simp at hi
    | cons next rest =>
      cases i with
      | zero =>
        have hpv0 : pv = prev := by simpa using hpv
        subst hpv0
        simp only [List.getD_cons_zero, List.getD_cons_succ]
        constructor
        · intro hcond
          simp only [smoothAux]
          rw [if_pos hcond]
          rfl
        · intro hncond
          simp only [smoothAux]
          rw [if_neg hncond]
          rfl
      | succ j =>
        have hj : j + 1 < (next :: rest).length := by
          simp only [List.length_cons] at hi ⊢
          omega
        by_cases hc : smoothCond cfg prev c next
        · have hunf : smoothAux cfg prev (c :: next :: rest) =
              smoothedPoint prev c ::
                smoothAux cfg (smoothedPoint prev c) (next :: rest) := by
            simp only [smoothAux]
            rw [if_pos hc]
          have hpv2 : pv = (if j = 0 then smoothedPoint prev c
              else (smoothAux cfg (smoothedPoint prev c) (next :: rest)).getD
                (j - 1) d) := by
            rw [hpv, hunf]
            cases j with
            | zero => simp
            | succ j2 => simp
          have := ih (smoothedPoint prev c) j hj pv hpv2
          rw [hunf]
          simpa only [List.getD_cons_succ] using this
        · have hunf : smoothAux cfg prev (c :: next :: rest) =
              c :: smoothAux cfg c (next :: rest) := by
            simp only [smoothAux]
            rw [if_neg hc]
          have hpv2 : pv = (if j = 0 then c
              else (smoothAux cfg c (next :: rest)).getD (j - 1) d) := by
            rw [hpv, hunf]
            cases j with
            | zero => simp
            | succ j2 => simp
          have := ih c j hj pv hpv2
          rw [hunf]
          simpa only [List.getD_cons_succ] using this

/-- C7 (amended): `_smooth_key_analysis`, run once after analysis, walks
the interior points left to right; a point whose (possibly already
smoothed) left neighbor and right neighbor share a key differing from its
own, and whose confidence is below `confidence_threshold + 0.1`, gets its
root and mode overwritten with the neighbor key AND `" (smoothed)"`
appended to its `analysis_method`; every other field of every point --
and the first and last points entirely, and every point of a list shorter
than 3 -- is left unchanged. -/
theorem smoothKeyAnalysis_frame_and_rule (cfg : AnalyzerConfig)
    (points : List KeyAnalysisPoint) (d : KeyAnalysisPoint) :
    ((smoothKeyAnalysis cfg points).length = points.length) ∧
    (points.length < 3 → smoothKeyAnalysis cfg points = points) ∧
    (∀ i, frameOf ((smoothKeyAnalysis cfg points).getD i d) =
      frameOf (points.getD i d)) ∧
    ((smoothKeyAnalysis cfg points).getD 0 d = points.getD 0 d) ∧
    (∀ i, i + 1 = points.length →
      (smoothKeyAnalysis cfg points).getD i d = points.getD i d) ∧
    (∀ i, 1 ≤ i → i + 1 < points.length →
      ∀ pv, pv = (smoothKeyAnalysis cfg points).getD (i - 1) d →
      (smoothCond cfg pv (points.getD i d) (points.getD (i + 1) d) →
        (smoothKeyAnalysis cfg points).getD i d =
          smoothedPoint pv (points.getD i d)) ∧
      (¬ smoothCond cfg pv (points.getD i d) (points.getD (i + 1) d) →
        (smoothKeyAnalysis cfg points).getD i d = points.getD i d)) := by
  by_cases hlen : points.length < 3
  · have hval : smoothKeyAnalysis cfg points = points := by
      unfold smoothKeyAnalysis
      rw [if_pos hlen]
    refine ⟨by rw [hval], fun _ => hval, fun i => by rw [hval], by rw [hval],
      fun i _ => by rw [hval], ?_⟩
    intro i h1 h2 pv hpv
    omega
  · cases points with
    | nil => simp at hlen
    | cons p0 rest =>
      have hval : smoothKeyAnalysis cfg (p0 :: rest) =
          p0 :: smoothAux cfg p0 rest := by
        unfold smoothKeyAnalysis
        rw [if_neg hlen]
      refine ⟨?_, fun h => absurd h hlen, ?_, ?_, ?_, ?_⟩
      · rw [hval]
        simp [smoothAux_length]
      · intro i
        rw [hval]
        cases i with
        | zero => rfl
        | succ j =>
          simp only [List.getD_cons_succ]
          exact smoothAux_frame cfg d rest p0 j
      · rw [hval]
        rfl
      · intro i hi
        rw [hval]
        cases i with
        | zero =>
          exfalso
          simp only [List.length_cons] at hi hlen
          omega
        | succ j =>
          simp only [List.getD_cons_succ]
          exact smoothAux_last cfg d rest p0 j (by simpa using hi)
      · intro i h1 h2 pv hpv
        cases i with
        | zero => omega
        | succ j =>
          have hj : j + 1 < rest.length := by
            simp only [List.length_cons] at h2
            omega
          have hpv2 : pv = (if j = 0 then p0
              else (smoothAux cfg p0 rest).getD (j - 1) d) := by
            rw [hpv, hval]
            cases j with
            | zero => simp
            | succ j2 => simp
          have := smoothAux_char cfg d rest p0 j hj pv hpv2
          rw [hval]
          simpa only [List.getD_cons_succ] using this

/-- C7 witness: the outlier middle point of the counterexample triple is
rewritten to its neighbors' key with the smoothed marker appended. -/
theorem smoothKeyAnalysis_frame_and_rule_witness :
    (smoothKeyAnalysis defaultConfig
      [mkPoint 0 0 Mode.major (9/10), mkPoint 1 7 Mode.major (7/10),
        mkPoint 2 0 Mode.major (9/10)]).getD 1 (mkPoint 0 0 Mode.major 0) =
      smoothedPoint (mkPoint 0 0 Mode.major (9/10))
        ([mkPoint 0 0 Mode.major (9/10), mkPoint 1 7 Mode.major (7/10),
          mkPoint 2 0 Mode.major (9/10)].getD 1 (mkPoint 0 0 Mode.major 0)) :=
  ((smoothKeyAnalysis_frame_and_rule defaultConfig
      [mkPoint 0 0 Mode.major (9/10), mkPoint 1 7 Mode.major (7/10),
        mkPoint 2 0 Mode.major (9/10)] (mkPoint 0 0 Mode.major 0)).2.2.2.2.2
    1 (by norm_num) (by norm_num)
    (mkPoint 0 0 Mode.major (9/10))
    (by norm_num [smoothKeyAnalysis, smoothAux, smoothCond, smoothedPoint,
      mkPoint, defaultConfig, List.getD])).1
    (by constructor
        · decide
        · constructor
          · decide
          · norm_num [mkPoint, defaultConfig])

/-- The iteration order of the best-key loop in
`_analyze_pitch_class_profile`: `for root in range(12)`, testing major then
minor at each root. -/
def keyCandidates : List (Fin 12 × Mode) :=
  (List.finRange 12).flatMap (fun r => [(r, Mode.major), (r, Mode.minor)])

/-- The best-key search of `_analyze_pitch_class_profile`
(`src/analysis/key_analysis.py`, lines 406-426): scan all 24 candidates in
order keeping the strictly best correlation (initial best `-1`, best key
`None`), then return the best key with its correlation only when it reaches
the confidence threshold, else `None`. -/
noncomputable def bestKeySearch (cfg : AnalyzerConfig) (p : Fin 12 → ℝ) :
    Option (Fin 12 × Mode × ℝ) :=
  match maxFold (fun c => calculateKeyCorrelation p c.1.val c.2)
      keyCandidates (-1, none) with
  | (bc, some bk) =>
    if (cfg.confidence_threshold : ℝ) ≤ bc then some (bk.1, bk.2, bc) else none
  | (_, none) => none

/-- C3: the best-key search evaluates all 24 (root, mode) candidates in the
fixed order (root ascending, major before minor) and, whenever it returns a
result, that result is the first-encountered argmax with its correlation
value, at or above the confidence threshold; it returns `None` exactly when
every candidate correlates below the threshold (for any threshold above
`-1`, in particular the default `0.65`). -/
theorem bestKeySearch_argmax (cfg : AnalyzerConfig) (p : Fin 12 → ℝ)
    (hthr : -1 < (cfg.confidence_threshold : ℝ)) :
    (keyCandidates.length = 24 ∧ ∀ r m, (r, m) ∈ keyCandidates) ∧
    (bestKeySearch cfg p = none ↔
      ∀ c ∈ keyCandidates,
        calculateKeyCorrelation p c.1.val c.2 < (cfg.confidence_threshold : ℝ)) ∧
    (∀ r m v, bestKeySearch cfg p = some (r, m, v) →
      v = calculateKeyCorrelation p r.val m ∧
      (cfg.confidence_threshold : ℝ) ≤ v ∧
      (∀ c ∈ keyCandidates, calculateKeyCorrelation p c.1.val c.2 ≤ v) ∧
      (∃ l1 l2, keyCandidates = l1 ++ (r, m) :: l2 ∧
        ∀ c ∈ l1, calculateKeyCorrelation p c.1.val c.2 < v)) := by
  refine ⟨⟨by decide, by decide⟩, ?_⟩
  rcases maxFold_cases (fun c => calculateKeyCorrelation p c.1.val c.2)
      keyCandidates (-1) none with
    ⟨heq, hle⟩ | ⟨l1, c, l2, hsplit, heq, hlt, hbefore, hafter⟩
  · have hval : bestKeySearch cfg p = none := by
      unfold bestKeySearch
      rw [heq]
    constructor
    · rw [hval]
      constructor
      · intro _ c hc
        exact lt_of_le_of_lt (hle c hc) hthr
      · intro _
        rfl
    · intro r m v h
      rw [hval] at h
      exact absurd h (by simp)
  · by_cases hth : (cfg.confidence_threshold : ℝ) ≤
        calculateKeyCorrelation p c.1.val c.2
    · have hval : bestKeySearch cfg p =
          some (c.1, c.2, calculateKeyCorrelation p c.1.val c.2) := by
        unfold bestKeySearch
        rw [heq]
        dsimp only
        rw [if_pos hth]
      constructor
      · rw [hval]
        constructor
        · intro h
          exact absurd h (by simp)
        · intro hall
          have hcmem : c ∈ keyCandidates := by
            rw [hsplit]
            exact List.mem_append.mpr (Or.inr (List.mem_cons_self _ _))
          exact absurd hth (not_le.mpr (hall c hcmem))
      · intro r m v h
        rw [hval] at h
        simp only [Option.some.injEq, Prod.mk.injEq] at h
        obtain ⟨hr, hm, hv⟩ := h
        subst hr
        subst hm
        subst hv
        refine ⟨rfl, hth, ?_, l1, l2, ?_, hbefore⟩
        · intro c2 hc2
          rw [hsplit] at hc2
          rcases List.mem_append.mp hc2 with hc2 | hc2
          · exact le_of_lt (hbefore c2 hc2)
          · rcases List.mem_cons.mp hc2 with rfl | hc2
            · exact le_refl _
            · exact hafter c2 hc2
        · rw [hsplit]
    · have hval : bestKeySearch cfg p = none := by
        unfold bestKeySearch
        rw [heq]
        dsimp only
        rw [if_neg hth]
      constructor
      · rw [hval]
        constructor
        · intro _ c2 hc2
          rw [hsplit] at hc2
          rcases List.mem_append.mp hc2 with hc2 | hc2
          · exact lt_of_lt_of_le (hbefore c2 hc2) (le_of_not_le hth)
          · rcases List.mem_cons.mp hc2 with rfl | hc2
            · exact lt_of_not_le hth
            · exact lt_of_le_of_lt (hafter c2 hc2) (lt_of_not_le hth)
        · intro _
          rfl
      · intro r m v h
        rw [hval] at h
        exact absurd h (by simp)

lemma calculateKeyCorrelation_const_one (root : ℕ) (mode : Mode) :
    calculateKeyCorrelation (fun _ => (1 : ℝ)) root mode = 0 := by
  have hsvar : svar (fun _ => (1 : ℝ)) = 0 := by
    simp [svar, mean12]
  unfold calculateKeyCorrelation
  rw [hsvar, zero_mul, Real.sqrt_zero, if_neg (lt_irrefl 0)]

/-- C3 witness: the candidate list covers all 24 keys; for a constant
(degenerate) profile every correlation is 0, below the default threshold
0.65, so the search yields no estimate. -/
theorem bestKeySearch_argmax_witness :
    (keyCandidates.length = 24 ∧ ∀ r m, (r, m) ∈ keyCandidates) ∧
    bestKeySearch defaultConfig (fun _ => 1) = none :=
  ⟨(bestKeySearch_argmax defaultConfig (fun _ => 1)
      (by norm_num [defaultConfig])).1,
    ((bestKeySearch_argmax defaultConfig (fun _ => 1)
        (by norm_num [defaultConfig])).2.1).mpr
      (fun c _ => by
        rw [calculateKeyCorrelation_const_one]
        norm_num [defaultConfig])⟩

/-- One sliding window of `_calculate_measure_windows`. -/
structure WindowInfo where
  start_time : ℚ
  end_time : ℚ
  start_measure : ℤ
  end_measure : ℤ
  window_size_measures : ℚ
  center_time : ℚ
  center_measure : ℚ
deriving DecidableEq, Repr

/-- `self.min_window_measures = 0.5` from `__init__`. -/
def MIN_WINDOW_MEASURES : ℚ := 1/2

/-- `self.max_window_measures = 8.0` from `__init__`. -/
def MAX_WINDOW_MEASURES : ℚ := 8

/-- `SlidingWindowKeyAnalyzer._calculate_adaptive_window_size`: the stubbed
density analysis always returns the base size clamped into
`[min_window_measures, max_window_measures]` (or the base size itself when
the sample range is empty). -/
def calculateAdaptiveWindowSize (cfg : AnalyzerConfig) (mt : List (ℚ × ℤ))
    (i : ℕ) : ℚ :=
  let sample_start := i - 2
  let sample_end := min mt.length (i + 5)
  if sample_end ≤ sample_start then cfg.base_window_measures
  else max MIN_WINDOW_MEASURES (min MAX_WINDOW_MEASURES cfg.base_window_measures)

/-- Python `int(q)`: truncation toward zero. -/
def ratTrunc (q : ℚ) : ℤ := if 0 ≤ q then ⌊q⌋ else -⌊-q⌋

/-- The inner scan `for j in range(i, len(measure_times))` that finds the
first measure marker at or past the target end measure. -/
def findEndTime (mt : List (ℚ × ℤ)) (i : ℕ) (target : ℚ) : Option (ℚ × ℤ) :=
  (mt.drop i).find? (fun tm => decide (target ≤ (tm.2 : ℚ)))

/-- The scan `for j in range(i + 1, len(measure_times))` computing `next_i`:
the first index past `i` whose measure reaches `next_measure`, with the
`for`-`else` fallback `i + max(1, int(step_measures))`. -/
def findNextIndex (mt : List (ℚ × ℤ)) (i : ℕ) (next_measure : ℚ) (step : ℚ) : ℕ :=
  match (mt.drop (i + 1)).findIdx? (fun tm => decide (next_measure ≤ (tm.2 : ℚ))) with
  | some j => i + 1 + j
  | none => i + (max 1 (ratTrunc step)).toNat

/-- The body of the `while i < len(measure_times) - 1` loop of
`_calculate_measure_windows` (`src/analysis/key_analysis.py`, lines
213-263), with an explicit fuel so that running out of fuel is observable
as `none`.  The window is appended only when the end time is truthy
(nonzero) and past the window start, mirroring
`if end_time and end_time > window_start_time`; the index then advances by
`i = min(next_i, i + 1)`. -/
def measureWindowsLoop (cfg : AnalyzerConfig) (mt : List (ℚ × ℤ)) :
    ℕ → ℕ → List WindowInfo → Option (List WindowInfo)
  | 0, _, _ => none
  | fuel + 1, i, acc =>
    if i < mt.length - 1 then
      let window_start_time := (mt.getD i (0, 0)).1
      let start_measure := (mt.getD i (0, 0)).2
      let window_size :=
        if cfg.adaptive_window then calculateAdaptiveWindowSize cfg mt i
        else cfg.base_window_measures
      let target_end_measure := (start_measure : ℚ) + window_size
      let et0 := findEndTime mt i target_end_measure
      let et := match et0 with
        | some x => some x
        | none => if i + 1 < mt.length then mt.getLast? else none
      let acc' := match et with
        | some em =>
          if em.1 ≠ 0 ∧ window_start_time < em.1 then
            acc ++ [⟨window_start_time, em.1, start_measure, em.2, window_size,
              (window_start_time + em.1) / 2,
              ((start_measure : ℚ) + (em.2 : ℚ)) / 2⟩]
          else acc
        | none => acc
      let step_measures := cfg.base_window_measures * (1 - cfg.overlap_ratio)
      let next_i := findNextIndex mt i ((start_measure : ℚ) + step_measures)
        step_measures
      measureWindowsLoop cfg mt fuel (min next_i (i + 1)) acc'
    else some acc

/-- `SlidingWindowKeyAnalyzer._calculate_measure_windows`: empty output for
fewer than two measure markers, otherwise the sliding-window loop started
at index 0 with fuel `len(measure_times)`. -/
def calculateMeasureWindows (cfg : AnalyzerConfig) (mt : List (ℚ × ℤ)) :
    Option (List WindowInfo) :=
  if mt.length < 2 then some []
  else measureWindowsLoop cfg mt mt.length 0 []

lemma findNextIndex_ge (mt : List (ℚ × ℤ)) (i : ℕ) (nm st : ℚ) :
    i + 1 ≤ findNextIndex mt i nm st := by
  unfold findNextIndex
  cases h : (mt.drop (i + 1)).findIdx? (fun tm => decide (nm ≤ (tm.2 : ℚ))) with
  | none =>
    dsimp only
    have h1 : (1 : ℤ) ≤ max 1 (ratTrunc st) := le_max_left _ _
    have h2 : 1 ≤ (max 1 (ratTrunc st)).toNat := by omega
    omega
  | some j =>
    dsimp only
    omega

lemma min_findNextIndex (mt : List (ℚ × ℤ)) (i : ℕ) (nm st : ℚ) :
    min (findNextIndex mt i nm st) (i + 1) = i + 1 :=
  min_eq_right (findNextIndex_ge mt i nm st)

lemma measureWindowsLoop_isSome (cfg : AnalyzerConfig) (mt : List (ℚ × ℤ)) :
    ∀ (fuel i : ℕ) (acc : List WindowInfo), mt.length - 1 - i < fuel →
      (measureWindowsLoop cfg mt fuel i acc).isSome := by
  intro fuel
  induction fuel with
  | zero =>
    intro i acc hfuel
    omega
  | succ f ih =>
    intro i acc hfuel
    by_cases hi : i < mt.length - 1
    · have hstep : ∀ acc2 : List WindowInfo,
          (measureWindowsLoop cfg mt f (i + 1) acc2).isSome :=
        fun acc2 => ih (i + 1) acc2 (by omega)
      simp only [measureWindowsLoop]
      rw [if_pos hi, min_findNextIndex]
      exact hstep _
    · simp only [measureWindowsLoop]
      rw [if_neg hi]
      rfl

/-- C9: the sliding-window loop of `_calculate_measure_windows` makes
strict forward progress on every iteration -- `next_i` is always at least
`i + 1`, so `i = min(next_i, i + 1)` advances the scan index by exactly
one -- and therefore the loop terminates on every finite measure list:
with fuel `len(measure_times)` it never runs out. -/
theorem calculateMeasureWindows_progress_and_terminates
    (cfg : AnalyzerConfig) (mt : List (ℚ × ℤ)) :
    (∀ i nm st, i < min (findNextIndex mt i nm st) (i + 1) ∧
      min (findNextIndex mt i nm st) (i + 1) = i + 1) ∧
    (∀ fuel i acc, mt.length - 1 - i < fuel →
      (measureWindowsLoop cfg mt fuel i acc).isSome) ∧
    (calculateMeasureWindows cfg mt).isSome := by
  refine ⟨?_, measureWindowsLoop_isSome cfg mt, ?_⟩
  · intro i nm st
    refine ⟨?_, min_findNextIndex mt i nm st⟩
    rw [min_findNextIndex]
    omega
  · unfold calculateMeasureWindows
    by_cases h : mt.length < 2
    · rw [if_pos h]
      rfl
    · rw [if_neg h]
      exact measureWindowsLoop_isSome cfg mt mt.length 0 [] (by omega)

/-- C9 witness: on a concrete three-measure timeline the loop advances one
marker per iteration and completes within its fuel. -/
theorem calculateMeasureWindows_progress_and_terminates_witness :
    (0 < min (findNextIndex [(0, 1), (2, 2), (4, 3)] 0 2 1) (0 + 1) ∧
      min (findNextIndex [(0, 1), (2, 2), (4, 3)] 0 2 1) (0 + 1) = 0 + 1) ∧
    (measureWindowsLoop defaultConfig [(0, 1), (2, 2), (4, 3)] 3 0 []).isSome ∧
    (calculateMeasureWindows defaultConfig [(0, 1), (2, 2), (4, 3)]).isSome :=
  ⟨(calculateMeasureWindows_progress_and_terminates defaultConfig
      [(0, 1), (2, 2), (4, 3)]).1 0 2 1,
    (calculateMeasureWindows_progress_and_terminates defaultConfig
      [(0, 1), (2, 2), (4, 3)]).2.1 3 0 [] (by norm_num),
    (calculateMeasureWindows_progress_and_terminates defaultConfig
      [(0, 1), (2, 2), (4, 3)]).2.2⟩

end MidiCompose
